import Mathlib

/-!
Verification of the chess session service (`src/main.rs`).

The repository's functioning code is the axum-based session layer in
`src/main.rs`: a registry of game sessions, move application, and status
derivation.  All chess rules, move generation and notation codecs are
delegated to the external `shakmaty` crate (the spec's "rules capability",
§4.4), whose code is not part of the repository; following the spec, the
capability is modelled here from the spec's words (definitions marked
"Modelled from the spec").  The session layer itself (`create_game`,
`get_game`, `delete_game`, `list_legal_moves`, `apply_move`, `status_of`,
`legal_moves_uci`, `fen_of`, `game_response`, `side_to_move`) is translated
from `src/main.rs`.
-/

namespace ChessApp

/-- Piece colors (shakmaty `Color`). -/
inductive Color where
  | white
  | black
deriving DecidableEq

/-- The other color. -/
def Color.other : Color → Color
  | .white => .black
  | .black => .white

/-- Piece roles (shakmaty `Role`). -/
inductive Role where
  | pawn
  | knight
  | bishop
  | rook
  | queen
  | king
deriving DecidableEq

/-- A piece is a colored role. -/
abbrev Piece := Color × Role

/-- Modelled from the spec: the board, 64 squares, square `8*rank + file`
with a1 = 0, h1 = 7, a8 = 56, h8 = 63. -/
abbrev Board := List (Option Piece)

/-- Castling rights for both sides. -/
structure Castles where
  wk : Bool
  wq : Bool
  bk : Bool
  bq : Bool
deriving DecidableEq

/-- Modelled from the spec: the opaque position type of the rules capability
(shakmaty `Chess`): piece placement, side to move, castling rights,
en-passant target square, halfmove clock and fullmove number. -/
structure Chess where
  board : Board
  turn : Color
  castles : Castles
  ep : Option Nat
  halfmoves : Nat
  fullmoves : Nat
deriving DecidableEq

/-- File (0..7) of a square. -/
def fileOf (sq : Nat) : Nat := sq % 8

/-- Rank (0..7) of a square. -/
def rankOf (sq : Nat) : Nat := sq / 8

/-- Square from file and rank. -/
def mkSq (f r : Nat) : Nat := 8 * r + f

/-- Read a square of the board. -/
def boardGet (b : Board) (sq : Nat) : Option Piece := b.getD sq none

/-- Write a square of the board. -/
def boardSet (b : Board) (sq : Nat) (v : Option Piece) : Board := b.set sq v

/-- Offset a square by a (file, rank) delta; `none` when off the board. -/
def tryOff (sq : Nat) (df dr : Int) : Option Nat :=
  let f : Int := (fileOf sq : Int) + df
  let r : Int := (rankOf sq : Int) + dr
  if 0 ≤ f ∧ f < 8 ∧ 0 ≤ r ∧ r < 8 then some (8 * r.toNat + f.toNat) else none

/-- Kinds of moves, distinguishing en passant and castling
(shakmaty `Move` variants `Normal`, `EnPassant`, `Castle`). -/
inductive MKind where
  | normal
  | enPassant
  | castle
deriving DecidableEq

/-- Modelled from the spec: a structured (concrete) move of the rules
capability.  `src`/`dst` are squares; a castling move carries the king's
origin and destination in standard (UCI) encoding. -/
structure Move where
  src : Nat
  dst : Nat
  promo : Option Role
  kind : MKind
deriving DecidableEq

/-- Rook directions. -/
def rookDirs : List (Int × Int) := [(1, 0), (-1, 0), (0, 1), (0, -1)]

/-- Bishop directions. -/
def bishopDirs : List (Int × Int) := [(1, 1), (1, -1), (-1, 1), (-1, -1)]

/-- Knight offsets. -/
def knightOffs : List (Int × Int) :=
  [(1, 2), (2, 1), (2, -1), (1, -2), (-1, -2), (-2, -1), (-2, 1), (-1, 2)]

/-- King offsets. -/
def kingOffs : List (Int × Int) := rookDirs ++ bishopDirs

/-- Squares reachable by a slider from `sq` in direction `(df, dr)`:
empty squares until the first piece, that square included when it holds an
opponent piece.  `fuel` bounds the walk (7 suffices on an 8×8 board). -/
def ray (b : Board) (me : Color) (sq : Nat) (df dr : Int) : Nat → List Nat
  | 0 => []
  | fuel + 1 =>
    match tryOff sq df dr with
    | none => []
    | some t =>
      match boardGet b t with
      | none => t :: ray b me t df dr fuel
      | some (c, _) => if c = me then [] else [t]

/-- First piece encountered from `sq` in direction `(df, dr)`. -/
def rayScan (b : Board) (sq : Nat) (df dr : Int) : Nat → Option Piece
  | 0 => none
  | fuel + 1 =>
    match tryOff sq df dr with
    | none => none
    | some t =>
      match boardGet b t with
      | some pc => some pc
      | none => rayScan b t df dr fuel

/-- Modelled from the spec: does color `c` attack square `sq`? -/
def isAttacked (b : Board) (sq : Nat) (c : Color) : Bool :=
  (knightOffs.any fun d =>
    match tryOff sq d.1 d.2 with
    | some t => decide (boardGet b t = some (c, Role.knight))
    | none => false) ||
  (kingOffs.any fun d =>
    match tryOff sq d.1 d.2 with
    | some t => decide (boardGet b t = some (c, Role.king))
    | none => false) ||
  (let dr : Int := if c = Color.white then -1 else 1
   [(-1 : Int), 1].any fun df =>
    match tryOff sq df dr with
    | some t => decide (boardGet b t = some (c, Role.pawn))
    | none => false) ||
  (rookDirs.any fun d =>
    match rayScan b sq d.1 d.2 7 with
    | some pc => decide (pc = (c, Role.rook) ∨ pc = (c, Role.queen))
    | none => false) ||
  (bishopDirs.any fun d =>
    match rayScan b sq d.1 d.2 7 with
    | some pc => decide (pc = (c, Role.bishop) ∨ pc = (c, Role.queen))
    | none => false)

/-- Promotion roles, queen first. -/
def promoRoles : List Role := [Role.queen, Role.rook, Role.bishop, Role.knight]

/-- A pawn move to `dst`, expanded into the four promotions on the last
rank. -/
def pawnTo (me : Color) (sq dst : Nat) : List Move :=
  let lastRank := if me = Color.white then 7 else 0
  if rankOf dst = lastRank then
    promoRoles.map fun r => ⟨sq, dst, some r, MKind.normal⟩
  else
    [⟨sq, dst, none, MKind.normal⟩]

/-- Pawn pushes and ordinary captures from `sq` (everything but en
passant). -/
def pawnPushCaps (b : Board) (me : Color) (sq : Nat) : List Move :=
  let dr : Int := if me = Color.white then 1 else -1
  let startRank := if me = Color.white then 1 else 6
  let push :=
    match tryOff sq 0 dr with
    | some t1 =>
      if boardGet b t1 = none then
        pawnTo me sq t1 ++
          (if rankOf sq = startRank then
            match tryOff sq 0 (2 * dr) with
            | some t2 =>
              if boardGet b t2 = none then [⟨sq, t2, none, MKind.normal⟩] else []
            | none => []
          else [])
      else []
    | none => []
  let caps := [(-1 : Int), 1].flatMap fun df =>
    match tryOff sq df dr with
    | some t =>
      match boardGet b t with
      | some (c, _) => if c = me then [] else pawnTo me sq t
      | none => []
    | none => []
  push ++ caps

/-- En-passant captures from `sq`, given the position's en-passant target
square. -/
def pawnEps (b : Board) (me : Color) (ep : Option Nat) (sq : Nat) : List Move :=
  match ep with
  | none => []
  | some e =>
    let dr : Int := if me = Color.white then 1 else -1
    [(-1 : Int), 1].flatMap fun df =>
      match tryOff sq df dr with
      | some t => if e = t ∧ boardGet b t = none then [⟨sq, t, none, MKind.enPassant⟩] else []
      | none => []

/-- Knight and king moves from `sq` by offsets. -/
def jumpMoves (b : Board) (me : Color) (sq : Nat) (offs : List (Int × Int)) : List Move :=
  offs.flatMap fun d =>
    match tryOff sq d.1 d.2 with
    | some t =>
      match boardGet b t with
      | some (c, _) => if c = me then [] else [⟨sq, t, none, MKind.normal⟩]
      | none => [⟨sq, t, none, MKind.normal⟩]
    | none => []

/-- Slider moves from `sq` along directions. -/
def slideMoves (b : Board) (me : Color) (sq : Nat) (dirs : List (Int × Int)) : List Move :=
  dirs.flatMap fun d => (ray b me sq d.1 d.2 7).map fun t => ⟨sq, t, none, MKind.normal⟩

/-- Castling moves available to `me` (standard chess corners), checking
rights, piece placement, empty in-between squares, and that the king does
not castle out of, through, or into an attacked square. -/
def castleMovesF (b : Board) (me : Color) (cr : Castles) : List Move :=
  match me with
  | Color.white =>
    (if cr.wk ∧ boardGet b 4 = some (Color.white, Role.king) ∧
        boardGet b 7 = some (Color.white, Role.rook) ∧
        boardGet b 5 = none ∧ boardGet b 6 = none ∧
        isAttacked b 4 Color.black = false ∧ isAttacked b 5 Color.black = false ∧
        isAttacked b 6 Color.black = false
      then [⟨4, 6, none, MKind.castle⟩] else []) ++
    (if cr.wq ∧ boardGet b 4 = some (Color.white, Role.king) ∧
        boardGet b 0 = some (Color.white, Role.rook) ∧
        boardGet b 1 = none ∧ boardGet b 2 = none ∧ boardGet b 3 = none ∧
        isAttacked b 4 Color.black = false ∧ isAttacked b 3 Color.black = false ∧
        isAttacked b 2 Color.black = false
      then [⟨4, 2, none, MKind.castle⟩] else [])
  | Color.black =>
    (if cr.bk ∧ boardGet b 60 = some (Color.black, Role.king) ∧
        boardGet b 63 = some (Color.black, Role.rook) ∧
        boardGet b 61 = none ∧ boardGet b 62 = none ∧
        isAttacked b 60 Color.white = false ∧ isAttacked b 61 Color.white = false ∧
        isAttacked b 62 Color.white = false
      then [⟨60, 62, none, MKind.castle⟩] else []) ++
    (if cr.bq ∧ boardGet b 60 = some (Color.black, Role.king) ∧
        boardGet b 56 = some (Color.black, Role.rook) ∧
        boardGet b 57 = none ∧ boardGet b 58 = none ∧ boardGet b 59 = none ∧
        isAttacked b 60 Color.white = false ∧ isAttacked b 59 Color.white = false ∧
        isAttacked b 58 Color.white = false
      then [⟨60, 58, none, MKind.castle⟩] else [])

/-- Pseudo-legal moves of a single piece. -/
def pieceMovesAt (b : Board) (me : Color) (ep : Option Nat) (sq : Nat) : Role → List Move
  | Role.pawn => pawnPushCaps b me sq ++ pawnEps b me ep sq
  | Role.knight => jumpMoves b me sq knightOffs
  | Role.bishop => slideMoves b me sq bishopDirs
  | Role.rook => slideMoves b me sq rookDirs
  | Role.queen => slideMoves b me sq (rookDirs ++ bishopDirs)
  | Role.king => jumpMoves b me sq kingOffs

/-- Pseudo-legal moves generated from square `sq`. -/
def genAt (b : Board) (me : Color) (ep : Option Nat) (sq : Nat) : List Move :=
  match boardGet b sq with
  | some (c, r) => if c = me then pieceMovesAt b me ep sq r else []
  | none => []

/-- All pseudo-legal moves of the side to move. -/
def pseudoMoves (p : Chess) : List Move :=
  ((List.range 64).flatMap fun sq => genAt p.board p.turn p.ep sq) ++
    castleMovesF p.board p.turn p.castles

/-- Clear castling rights affected by a move touching square `sq`. -/
def clearRights (cr : Castles) (sq : Nat) : Castles :=
  let cr := if sq = 4 then { cr with wk := false, wq := false } else cr
  let cr := if sq = 60 then { cr with bk := false, bq := false } else cr
  let cr := if sq = 0 then { cr with wq := false } else cr
  let cr := if sq = 7 then { cr with wk := false } else cr
  let cr := if sq = 56 then { cr with bq := false } else cr
  let cr := if sq = 63 then { cr with bk := false } else cr
  cr

/-- Modelled from the spec: `Apply(position, move) -> new position`
(shakmaty `play_unchecked`): pure transformation of a position by a
resolved move.  Never reads the position's en-passant field. -/
def play_unchecked (p : Chess) (m : Move) : Chess :=
  let me := p.turn
  let moved := boardGet p.board m.src
  let isCapture := (boardGet p.board m.dst).isSome || decide (m.kind = MKind.enPassant)
  let isPawn := decide (moved = some (me, Role.pawn))
  let b1 :=
    match m.kind with
    | MKind.normal =>
      let pc : Option Piece :=
        match moved, m.promo with
        | some (c, _), some pr => some (c, pr)
        | mv, none => mv
        | none, some _ => none
      boardSet (boardSet p.board m.src none) m.dst pc
    | MKind.enPassant =>
      let capSq := mkSq (fileOf m.dst) (rankOf m.src)
      boardSet (boardSet (boardSet p.board m.src none) capSq none) m.dst moved
    | MKind.castle =>
      let r := rankOf m.src
      let pair := if fileOf m.dst = 6 then (mkSq 7 r, mkSq 5 r) else (mkSq 0 r, mkSq 3 r)
      boardSet (boardSet (boardSet (boardSet p.board m.src none) pair.1 none)
        m.dst (some (me, Role.king))) pair.2 (some (me, Role.rook))
  let newEp : Option Nat :=
    if isPawn ∧ (m.dst = m.src + 16 ∨ m.src = m.dst + 16) then
      some ((m.src + m.dst) / 2)
    else none
  { board := b1
    turn := me.other
    castles := clearRights (clearRights p.castles m.src) m.dst
    ep := newEp
    halfmoves := if isPawn || isCapture then 0 else p.halfmoves + 1
    fullmoves := p.fullmoves + (if me = Color.black then 1 else 0) }

/-- Square of the king of color `c`, if any. -/
def kingSq (b : Board) (c : Color) : Option Nat :=
  (List.range 64).find? fun sq => decide (boardGet b sq = some (c, Role.king))

/-- A pseudo-legal move is legal when, after playing it, the mover's king
is not attacked. -/
def isLegal (p : Chess) (m : Move) : Bool :=
  let q := play_unchecked p m
  match kingSq q.board p.turn with
  | some k => !isAttacked q.board k p.turn.other
  | none => true

/-- Modelled from the spec: `LegalMoves(position)` (shakmaty
`legal_moves`). -/
def legal_moves (p : Chess) : List Move := (pseudoMoves p).filter (isLegal p)

/-- Modelled from the spec: is the side to move in check (shakmaty
`is_check`)? -/
def is_check (p : Chess) : Bool :=
  match kingSq p.board p.turn with
  | some k => isAttacked p.board k p.turn.other
  | none => false

/-- Modelled from the spec: stalemate means the side to move has no legal
move and is not in check (shakmaty `is_stalemate`). -/
def is_stalemate (p : Chess) : Bool :=
  decide (legal_moves p = []) && !is_check p

/-- Modelled from the spec: only the two kings remain, a drawn-material
situation ("insufficient material", §4.3). -/
def insufficient_material (p : Chess) : Bool :=
  p.board.all fun sq =>
    match sq with
    | none => true
    | some (_, r) => decide (r = Role.king)

/-- Outcome classification of the rules capability (shakmaty `Outcome`,
with `Known (Decisive winner)`, `Known Draw` and `Unknown` flattened into
one inductive). -/
inductive Outcome where
  | unknown
  | decisive (winner : Color)
  | draw
deriving DecidableEq

/-- Modelled from the spec: `Outcome(position) -> Ongoing | Decisive |
Drawn` (§4.4).  A side with no legal moves is checkmated (the opponent
wins) or stalemated (draw); otherwise the game is drawn on insufficient
material or when the move-count limit is exhausted (halfmove clock at 100,
the fifty-move limit; repetition, being a property of the game history
rather than of one position, is not representable in a pure function of
the position).  Otherwise the game is ongoing. -/
def outcome (p : Chess) : Outcome :=
  if legal_moves p = [] then
    if is_check p then Outcome.decisive p.turn.other else Outcome.draw
  else if insufficient_material p then Outcome.draw
  else if p.halfmoves ≥ 100 then Outcome.draw
  else Outcome.unknown

/-- Modelled from the spec: the standard chess start position (shakmaty
`Chess::default`). -/
def chessDefault : Chess :=
  { board :=
      [some (Color.white, Role.rook), some (Color.white, Role.knight),
       some (Color.white, Role.bishop), some (Color.white, Role.queen),
       some (Color.white, Role.king), some (Color.white, Role.bishop),
       some (Color.white, Role.knight), some (Color.white, Role.rook),
       some (Color.white, Role.pawn), some (Color.white, Role.pawn),
       some (Color.white, Role.pawn), some (Color.white, Role.pawn),
       some (Color.white, Role.pawn), some (Color.white, Role.pawn),
       some (Color.white, Role.pawn), some (Color.white, Role.pawn),
       none, none, none, none, none, none, none, none,
       none, none, none, none, none, none, none, none,
       none, none, none, none, none, none, none, none,
       none, none, none, none, none, none, none, none,
       some (Color.black, Role.pawn), some (Color.black, Role.pawn),
       some (Color.black, Role.pawn), some (Color.black, Role.pawn),
       some (Color.black, Role.pawn), some (Color.black, Role.pawn),
       some (Color.black, Role.pawn), some (Color.black, Role.pawn),
       some (Color.black, Role.rook), some (Color.black, Role.knight),
       some (Color.black, Role.bishop), some (Color.black, Role.queen),
       some (Color.black, Role.king), some (Color.black, Role.bishop),
       some (Color.black, Role.knight), some (Color.black, Role.rook)]
    turn := Color.white
    castles := ⟨true, true, true, true⟩
    ep := none
    halfmoves := 0
    fullmoves := 1 }

/-- File letter of a file index. -/
def fileChar : Nat → Char
  | 0 => 'a'
  | 1 => 'b'
  | 2 => 'c'
  | 3 => 'd'
  | 4 => 'e'
  | 5 => 'f'
  | 6 => 'g'
  | 7 => 'h'
  | _ => 'x'

/-- Rank digit of a rank index. -/
def rankChar : Nat → Char
  | 0 => '1'
  | 1 => '2'
  | 2 => '3'
  | 3 => '4'
  | 4 => '5'
  | 5 => '6'
  | 6 => '7'
  | 7 => '8'
  | _ => 'x'

/-- File index of a file letter. -/
def fileVal : Char → Option Nat
  | 'a' => some 0
  | 'b' => some 1
  | 'c' => some 2
  | 'd' => some 3
  | 'e' => some 4
  | 'f' => some 5
  | 'g' => some 6
  | 'h' => some 7
  | _ => none

/-- Rank index of a rank digit. -/
def rankVal : Char → Option Nat
  | '1' => some 0
  | '2' => some 1
  | '3' => some 2
  | '4' => some 3
  | '5' => some 4
  | '6' => some 5
  | '7' => some 6
  | '8' => some 7
  | _ => none

/-- Algebraic name of a square ("e4"). -/
def squareName (sq : Nat) : List Char := [fileChar (fileOf sq), rankChar (rankOf sq)]

/-- Lowercase letter of a role (promotion letters, black piece letters). -/
def roleChar : Role → Char
  | Role.pawn => 'p'
  | Role.knight => 'n'
  | Role.bishop => 'b'
  | Role.rook => 'r'
  | Role.queen => 'q'
  | Role.king => 'k'

/-- Promotion role of a UCI promotion letter. -/
def promoOfChar : Char → Option Role
  | 'q' => some Role.queen
  | 'r' => some Role.rook
  | 'b' => some Role.bishop
  | 'n' => some Role.knight
  | _ => none

/-- Modelled from the spec: a parsed UCI move descriptor (shakmaty
`UciMove`): origin square, destination square, optional promotion role. -/
structure UciMove where
  src : Nat
  dst : Nat
  promo : Option Role
deriving DecidableEq

/-- Text of a UCI descriptor (shakmaty `UciMove::to_string`). -/
def uciString (u : UciMove) : String :=
  ⟨squareName u.src ++ squareName u.dst ++
    (match u.promo with
     | some r => [roleChar r]
     | none => [])⟩

/-- Modelled from the spec: `ParseUci(text)` (§4.4): a UCI move is 4 or 5
characters, origin square, destination square, optional promotion
letter. -/
def parseUci (s : String) : Option UciMove :=
  match s.data with
  | [a, b, c, d] => do
    let f1 ← fileVal a
    let r1 ← rankVal b
    let f2 ← fileVal c
    let r2 ← rankVal d
    pure ⟨mkSq f1 r1, mkSq f2 r2, none⟩
  | [a, b, c, d, e] => do
    let f1 ← fileVal a
    let r1 ← rankVal b
    let f2 ← fileVal c
    let r2 ← rankVal d
    let pr ← promoOfChar e
    pure ⟨mkSq f1 r1, mkSq f2 r2, some pr⟩
  | _ => none

/-- Modelled from the spec: `ResolveMove(position, descriptor)` (shakmaty
`UciMove::to_move`): the legal move matching the descriptor's origin,
destination and promotion, if any. -/
def uciToMove (u : UciMove) (p : Chess) : Option Move :=
  (legal_moves p).find? fun m =>
    decide (m.src = u.src ∧ m.dst = u.dst ∧ m.promo = u.promo)

/-- UCI text of a concrete move in standard castling mode (shakmaty
`Move::to_uci(mode).to_string`). -/
def moveUci (m : Move) : String := uciString ⟨m.src, m.dst, m.promo⟩

/-- Uppercase SAN letter of a role. -/
def roleLetter : Role → List Char
  | Role.pawn => []
  | Role.knight => ['N']
  | Role.bishop => ['B']
  | Role.rook => ['R']
  | Role.queen => ['Q']
  | Role.king => ['K']

/-- Modelled from the spec: `EncodeSan(position, move)` (shakmaty
`San::from_move`), called against the pre-move position: piece letter,
disambiguation when another piece of the same role can reach the square,
capture marker, destination, promotion suffix, castling as O-O / O-O-O,
and a check or mate suffix from the post-move position. -/
def encodeSan (p : Chess) (m : Move) : String :=
  let isCap := (boardGet p.board m.dst).isSome || decide (m.kind = MKind.enPassant)
  let moverRole :=
    match boardGet p.board m.src with
    | some (_, r) => r
    | none => Role.pawn
  let base : List Char :=
    match m.kind with
    | MKind.castle =>
      if fileOf m.dst = 6 then ['O', '-', 'O'] else ['O', '-', 'O', '-', 'O']
    | _ =>
      match moverRole with
      | Role.pawn =>
        (if isCap then [fileChar (fileOf m.src), 'x'] else []) ++ squareName m.dst ++
          (match m.promo with
           | some pr => '=' :: roleLetter pr
           | none => [])
      | r =>
        let others := (legal_moves p).filter fun m2 =>
          decide (m2.dst = m.dst ∧ m2.src ≠ m.src ∧ boardGet p.board m2.src = some (p.turn, r))
        let disamb : List Char :=
          if others.isEmpty then []
          else if others.all fun m2 => decide (fileOf m2.src ≠ fileOf m.src) then
            [fileChar (fileOf m.src)]
          else if others.all fun m2 => decide (rankOf m2.src ≠ rankOf m.src) then
            [rankChar (rankOf m.src)]
          else squareName m.src
        roleLetter r ++ disamb ++ (if isCap then ['x'] else []) ++ squareName m.dst
  let q := play_unchecked p m
  let sfx : List Char :=
    if is_check q then (if legal_moves q = [] then ['#'] else ['+']) else []
  ⟨base ++ sfx⟩

/-- FEN letter of a piece (uppercase white, lowercase black). -/
def pieceChar : Piece → Char
  | (Color.white, Role.pawn) => 'P'
  | (Color.white, Role.knight) => 'N'
  | (Color.white, Role.bishop) => 'B'
  | (Color.white, Role.rook) => 'R'
  | (Color.white, Role.queen) => 'Q'
  | (Color.white, Role.king) => 'K'
  | (Color.black, Role.pawn) => 'p'
  | (Color.black, Role.knight) => 'n'
  | (Color.black, Role.bishop) => 'b'
  | (Color.black, Role.rook) => 'r'
  | (Color.black, Role.queen) => 'q'
  | (Color.black, Role.king) => 'k'

/-- Piece denoted by a FEN letter. -/
def pieceOfChar : Char → Option Piece
  | 'P' => some (Color.white, Role.pawn)
  | 'N' => some (Color.white, Role.knight)
  | 'B' => some (Color.white, Role.bishop)
  | 'R' => some (Color.white, Role.rook)
  | 'Q' => some (Color.white, Role.queen)
  | 'K' => some (Color.white, Role.king)
  | 'p' => some (Color.black, Role.pawn)
  | 'n' => some (Color.black, Role.knight)
  | 'b' => some (Color.black, Role.bishop)
  | 'r' => some (Color.black, Role.rook)
  | 'q' => some (Color.black, Role.queen)
  | 'k' => some (Color.black, Role.king)
  | _ => none

/-- Decimal digit character of `d` (digits 0..9). -/
def digitChar : Nat → Char
  | 0 => '0'
  | 1 => '1'
  | 2 => '2'
  | 3 => '3'
  | 4 => '4'
  | 5 => '5'
  | 6 => '6'
  | 7 => '7'
  | 8 => '8'
  | 9 => '9'
  | _ => 'x'

/-- Value of a decimal digit character, computed from its code point. -/
def digitVal (c : Char) : Option Nat :=
  if 48 ≤ c.toNat ∧ c.toNat ≤ 57 then some (c.toNat - 48) else none

/-- Decimal digits of `n`, least significant first; `fuel` bounds the
recursion (`fuel = n` suffices). -/
def toDigitsRev (fuel : Nat) (n : Nat) : List Nat :=
  match fuel with
  | 0 => []
  | fuel + 1 => if n = 0 then [] else n % 10 :: toDigitsRev fuel (n / 10)

/-- Value of a little-endian decimal digit list. -/
def valDigits : List Nat → Nat
  | [] => 0
  | d :: ds => d + 10 * valDigits ds

/-- Print a natural number in decimal. -/
def printNat (n : Nat) : List Char :=
  if n = 0 then ['0'] else ((toDigitsRev n n).map digitChar).reverse

/-- Values of a list of decimal digit characters. -/
def digitsVal : List Char → Option (List Nat)
  | [] => some []
  | c :: cs =>
    match digitVal c, digitsVal cs with
    | some d, some ds => some (d :: ds)
    | _, _ => none

/-- Parse a nonempty decimal numeral. -/
def parseNat (cs : List Char) : Option Nat :=
  if cs.isEmpty then none
  else (digitsVal cs).map fun ds => valDigits ds.reverse

/-- Encode one FEN rank, run-length compressing empty squares;
`k` is the count of pending empty squares. -/
def encRank : List (Option Piece) → Nat → List Char
  | [], 0 => []
  | [], k + 1 => [digitChar (k + 1)]
  | none :: rest, k => encRank rest (k + 1)
  | some pc :: rest, 0 => pieceChar pc :: encRank rest 0
  | some pc :: rest, k + 1 => digitChar (k + 1) :: pieceChar pc :: encRank rest 0

/-- Decode the body of one FEN rank. -/
def decRank : List Char → Option (List (Option Piece))
  | [] => some []
  | c :: cs =>
    match digitVal c with
    | some d =>
      if 1 ≤ d ∧ d ≤ 8 then (decRank cs).map fun r => List.replicate d none ++ r
      else none
    | none =>
      match pieceOfChar c with
      | some pc => (decRank cs).map fun r => some pc :: r
      | none => none

/-- Decode one FEN rank, which must hold exactly 8 squares. -/
def decodeRank (cs : List Char) : Option (List (Option Piece)) :=
  (decRank cs).bind fun r => if r.length = 8 then some r else none

/-- Split the board into 8 ranks of 8 squares, rank 1 first. -/
def chunksB : Nat → Board → List (List (Option Piece))
  | 0, _ => []
  | n + 1, l => l.take 8 :: chunksB n (l.drop 8)

/-- Join character lists with a separator character. -/
def joinSep (c : Char) : List (List Char) → List Char
  | [] => []
  | [p] => p
  | p :: ps => p ++ c :: joinSep c ps

/-- Split a character list at a separator character. -/
def splitCh (c : Char) : List Char → List (List Char)
  | [] => [[]]
  | x :: xs =>
    if x = c then [] :: splitCh c xs
    else
      match splitCh c xs with
      | [] => [[x]]
      | h :: t => (x :: h) :: t

/-- FEN piece-placement field: ranks 8 down to 1, separated by slashes. -/
def encodeBoard (b : Board) : List Char :=
  joinSep '/' ((chunksB 8 b).reverse.map fun r => encRank r 0)

/-- Decode the ranks of a FEN piece-placement field. -/
def decodeRanks : List (List Char) → Option (List (List (Option Piece)))
  | [] => some []
  | p :: ps =>
    match decodeRank p, decodeRanks ps with
    | some r, some rs => some (r :: rs)
    | _, _ => none

/-- Decode a FEN piece-placement field. -/
def decodeBoard (cs : List Char) : Option Board :=
  let parts := splitCh '/' cs
  if parts.length = 8 then
    (decodeRanks parts).map fun ranks => ranks.reverse.flatten
  else none

/-- FEN side-to-move letter. -/
def turnChar : Color → Char
  | Color.white => 'w'
  | Color.black => 'b'

/-- Decode the FEN side-to-move field. -/
def decodeTurn : List Char → Option Color
  | ['w'] => some Color.white
  | ['b'] => some Color.black
  | _ => none

/-- FEN castling field. -/
def encodeCastles (cr : Castles) : List Char :=
  let s := (if cr.wk then ['K'] else []) ++ (if cr.wq then ['Q'] else []) ++
    (if cr.bk then ['k'] else []) ++ (if cr.bq then ['q'] else [])
  if s.isEmpty then ['-'] else s

/-- Decode the FEN castling field. -/
def decodeCastles (cs : List Char) : Option Castles :=
  if cs = ['-'] then some ⟨false, false, false, false⟩
  else
    let step : Option Castles → Char → Option Castles := fun acc c =>
      acc.bind fun cr =>
        match c with
        | 'K' => some { cr with wk := true }
        | 'Q' => some { cr with wq := true }
        | 'k' => some { cr with bk := true }
        | 'q' => some { cr with bq := true }
        | _ => none
    if cs.isEmpty then none
    else cs.foldl step (some ⟨false, false, false, false⟩)

/-- FEN en-passant field of an (already disclosed) target square. -/
def encodeEp : Option Nat → List Char
  | none => ['-']
  | some sq => squareName sq

/-- Decode the FEN en-passant field. -/
def decodeEp : List Char → Option (Option Nat)
  | ['-'] => some none
  | [f, r] => do
    let fv ← fileVal f
    let rv ← rankVal r
    pure (some (mkSq fv rv))
  | _ => none

/-- Is some legal move of the position an en-passant capture? -/
def hasLegalEp (p : Chess) : Bool :=
  (legal_moves p).any fun m => decide (m.kind = MKind.enPassant)

/-- Modelled from the spec: the "legal en-passant" disclosure rule of
`EncodeFen` (§4.4, shakmaty `EnPassantMode::Legal`): the en-passant target
square is included only if capturing it is itself legal. -/
def epDisclosed (p : Chess) : Option Nat :=
  match p.ep with
  | some sq => if hasLegalEp p then some sq else none
  | none => none

/-- The six space-separated FEN fields of a position. -/
def fenFields (p : Chess) : List (List Char) :=
  [encodeBoard p.board, [turnChar p.turn], encodeCastles p.castles,
   encodeEp (epDisclosed p), printNat p.halfmoves, printNat p.fullmoves]

/-- Modelled from the spec: `DecodeFen(text) -> position | ParseError`
(§4.4, shakmaty `Fen::parse` followed by `into_position`). -/
def decodeFen (s : String) : Option Chess :=
  match splitCh ' ' s.data with
  | [bf, tf, cf, ef, hf, ff] => do
    let b ← decodeBoard bf
    let t ← decodeTurn tf
    let c ← decodeCastles cf
    let e ← decodeEp ef
    let h ← parseNat hf
    let f ← parseNat ff
    pure ⟨b, t, c, e, h, f⟩
  | _ => none

/-- One game session (`GameEntry` in `src/main.rs`): the position and the
parallel UCI / SAN histories. -/
structure GameEntry where
  pos : Chess
  history_uci : List String
  history_san : List String
deriving DecidableEq

/-- The session registry (`Store = Arc<RwLock<HashMap<Uuid, GameEntry>>>`
in `src/main.rs`), modelled as a map from identifiers to sessions; the
lock is not modelled (every handler runs to completion under it).
Identifiers (`Uuid`) are modelled as naturals. -/
def Store : Type := Nat → Option GameEntry

/-- `HashMap::insert`. -/
def storeInsert (s : Store) (id : Nat) (e : GameEntry) : Store :=
  fun j => if j = id then some e else s j

/-- `HashMap::remove`. -/
def storeRemove (s : Store) (id : Nat) : Store :=
  fun j => if j = id then none else s j

/-- The error taxonomy of `src/main.rs` (`ApiError`); the formatted
message payloads are elided. -/
inductive ApiError where
  | notFound
  | badRequest
  | illegalMove
  | internal
deriving DecidableEq

/-- The game status enum of `src/main.rs` (`SideToMove`). -/
inductive SideToMove where
  | white
  | black
deriving DecidableEq

/-- The game status enum of `src/main.rs` (`GameStatus`). -/
inductive GameStatus where
  | ongoing (to_move : SideToMove) (in_check : Bool)
  | checkmate (winner : SideToMove)
  | stalemate
  | draw
deriving DecidableEq

/-- Response body of `POST /games` (`CreateGameResponse`). -/
structure CreateGameResponse where
  id : Nat
  fen : String
deriving DecidableEq

/-- Response body of `POST /games/{id}/moves` (`ApplyMoveResponse`). -/
structure ApplyMoveResponse where
  id : Nat
  applied_uci : String
  applied_san : String
  fen : String
  legal_moves : List String
  status : GameStatus
deriving DecidableEq

/-- Response body of `GET /games/{id}` (`GameResponse`). -/
structure GameResponse where
  id : Nat
  fen : String
  legal_moves : List String
  moves_uci : List String
  moves_san : List String
  status : GameStatus
deriving DecidableEq

/-- `fen_of` from `src/main.rs`:
`Fen::from_position(pos, EnPassantMode::Legal).to_string()`. -/
def fen_of (pos : Chess) : String := ⟨joinSep ' ' (fenFields pos)⟩

/-- `legal_moves_uci` from `src/main.rs`: the legal moves of the position,
each rendered as UCI text in the position's castling mode (standard). -/
def legal_moves_uci (pos : Chess) : List String :=
  (legal_moves pos).map moveUci

/-- `side_to_move` from `src/main.rs`: `pos.turn()`. -/
def side_to_move (pos : Chess) : Color := pos.turn

/-- `SideToMove` of a `Color`, as matched inline in `status_of`. -/
def stmOf : Color → SideToMove
  | Color.white => SideToMove.white
  | Color.black => SideToMove.black

/-- `status_of` from `src/main.rs`: map the rules-engine outcome to the
user-facing status; a drawn outcome is reported as `Stalemate` exactly
when `is_stalemate` holds, and as `Draw` otherwise. -/
def status_of (pos : Chess) : GameStatus :=
  match outcome pos with
  | Outcome.decisive winner =>
    match winner with
    | Color.white => GameStatus.checkmate SideToMove.white
    | Color.black => GameStatus.checkmate SideToMove.black
  | Outcome.draw =>
    if is_stalemate pos then GameStatus.stalemate else GameStatus.draw
  | Outcome.unknown =>
    GameStatus.ongoing
      (match side_to_move pos with
       | Color.white => SideToMove.white
       | Color.black => SideToMove.black)
      (is_check pos)

/-- `game_response` from `src/main.rs`. -/
def game_response (id : Nat) (entry : GameEntry) : GameResponse :=
  { id := id
    fen := fen_of entry.pos
    legal_moves := legal_moves_uci entry.pos
    moves_uci := entry.history_uci
    moves_san := entry.history_san
    status := status_of entry.pos }

/-- `create_game` from `src/main.rs`.  The freshly generated identifier
(`Uuid::new_v4()`) is passed in explicitly, making the randomness an
explicit input.  With a FEN in the request the position is decoded
(`BadRequest` on failure), otherwise `Chess::default()` is used; the new
session with empty histories is inserted unconditionally under `id`. -/
def create_game (id : Nat) (store : Store) (reqFen : Option String) :
    Store × Except ApiError CreateGameResponse :=
  match reqFen with
  | some fs =>
    match decodeFen fs with
    | none => (store, Except.error ApiError.badRequest)
    | some pos =>
      (storeInsert store id ⟨pos, [], []⟩, Except.ok ⟨id, fen_of pos⟩)
  | none =>
    (storeInsert store id ⟨chessDefault, [], []⟩,
     Except.ok ⟨id, fen_of chessDefault⟩)

/-- `get_game` from `src/main.rs` (read-only: takes the read lock and does
not modify the store). -/
def get_game (store : Store) (id : Nat) : Except ApiError GameResponse :=
  match store id with
  | none => Except.error ApiError.notFound
  | some entry => Except.ok (game_response id entry)

/-- `delete_game` from `src/main.rs`: remove the entry if present
(`204 No Content`), `NotFound` otherwise. -/
def delete_game (store : Store) (id : Nat) : Store × Except ApiError Unit :=
  match store id with
  | some _ => (storeRemove store id, Except.ok ())
  | none => (store, Except.error ApiError.notFound)

/-- `list_legal_moves` from `src/main.rs` (read-only). -/
def list_legal_moves (store : Store) (id : Nat) : Except ApiError (List String) :=
  match store id with
  | none => Except.error ApiError.notFound
  | some entry => Except.ok (legal_moves_uci entry.pos)

/-- `apply_move` from `src/main.rs`: look up the session, parse the UCI
text, resolve it to a legal move, encode SAN against the pre-move
position, play the move, append `uci.to_string()` and the SAN text to the
histories, and answer with the request's UCI text, the SAN text, and the
new position's FEN, legal moves and status.  Every failure returns before
the store is modified. -/
def apply_move (store : Store) (id : Nat) (reqUci : String) :
    Store × Except ApiError ApplyMoveResponse :=
  match store id with
  | none => (store, Except.error ApiError.notFound)
  | some entry =>
    match parseUci reqUci with
    | none => (store, Except.error ApiError.badRequest)
    | some uci =>
      match uciToMove uci entry.pos with
      | none => (store, Except.error ApiError.illegalMove)
      | some m =>
        let san := encodeSan entry.pos m
        let newPos := play_unchecked entry.pos m
        let entry2 : GameEntry :=
          ⟨newPos, entry.history_uci ++ [uciString uci], entry.history_san ++ [san]⟩
        (storeInsert store id entry2,
         Except.ok
           ⟨id, reqUci, san, fen_of newPos, legal_moves_uci newPos, status_of newPos⟩)

/-- The history-length invariant of the session registry (§3): the UCI and
SAN histories of every stored session run in parallel. -/
def StoreInv (s : Store) : Prop :=
  ∀ j e, s j = some e → e.history_uci.length = e.history_san.length

/-- A position with only the two kings (e1, e8), white to move: the
rules-engine outcome is drawn on insufficient material, with legal moves
available. -/
def bareKings : Chess :=
  { board := (((List.replicate 64 (none : Option Piece)).set 4
      (some (Color.white, Role.king))).set 60 (some (Color.black, Role.king)))
    turn := Color.white
    castles := ⟨false, false, false, false⟩
    ep := none
    halfmoves := 0
    fullmoves := 1 }

/-- A checkmate position: black king a8, white queen b7 guarded by the
white king b6, black to move. -/
def matePos : Chess :=
  { board := ((((List.replicate 64 (none : Option Piece)).set 56
      (some (Color.black, Role.king))).set 49
      (some (Color.white, Role.queen))).set 41 (some (Color.white, Role.king)))
    turn := Color.black
    castles := ⟨false, false, false, false⟩
    ep := none
    halfmoves := 0
    fullmoves := 1 }

/-- A king-and-queen endgame FEN whose halfmove clock stands one ply short
of the move-count limit. -/
def c3Fen : String := "k7/8/8/8/8/8/1Q6/K7 w - - 99 80"

/-- The registry holding one session created from `c3Fen`. -/
def c3Store : Store := (create_game 0 (fun _ => none) (some c3Fen)).1

/-! Lemmas: splitting is a left inverse of joining. -/

theorem splitCh_no_sep (c : Char) (l : List Char) (h : c ∉ l) : splitCh c l = [l] := by
  induction l with
  | nil => rfl
  | cons x xs ih =>
    simp only [List.mem_cons, not_or] at h
    have hx : ¬x = c := fun hxc => h.1 hxc.symm
    simp only [splitCh, if_neg hx, ih h.2]

theorem splitCh_append (c : Char) (a b : List Char) (h : c ∉ a) :
    splitCh c (a ++ c :: b) = a :: splitCh c b := by
  induction a with
  | nil => simp [splitCh]
  | cons x xs ih =>
    simp only [List.mem_cons, not_or] at h
    have hx : ¬x = c := fun hxc => h.1 hxc.symm
    simp only [List.cons_append, splitCh, if_neg hx]
    rw [show xs.append (c :: b) = xs ++ c :: b from rfl, ih h.2]

theorem splitCh_joinSep (c : Char) (parts : List (List Char)) (hne : parts ≠ [])
    (h : ∀ p ∈ parts, c ∉ p) : splitCh c (joinSep c parts) = parts := by
  induction parts with
  | nil => exact absurd rfl hne
  | cons p ps ih =>
    cases ps with
    | nil => exact splitCh_no_sep c p (h p (by simp))
    | cons q qs =>
      have hj : joinSep c (p :: q :: qs) = p ++ c :: joinSep c (q :: qs) := rfl
      rw [hj, splitCh_append c p _ (h p (by simp)),
        ih (by simp) fun r hr => h r (List.mem_cons_of_mem p hr)]

theorem mem_joinSep (c : Char) (parts : List (List Char)) (x : Char)
    (hx : x ∈ joinSep c parts) : x = c ∨ ∃ p ∈ parts, x ∈ p := by
  induction parts with
  | nil => simp [joinSep] at hx
  | cons p ps ih =>
    cases ps with
    | nil =>
      simp only [joinSep] at hx
      exact Or.inr ⟨p, by simp, hx⟩
    | cons q qs =>
      have hj : joinSep c (p :: q :: qs) = p ++ c :: joinSep c (q :: qs) := rfl
      rw [hj] at hx
      rcases List.mem_append.mp hx with hp | hrest
      · exact Or.inr ⟨p, by simp, hp⟩
      · rcases List.mem_cons.mp hrest with hc | hjoin
        · exact Or.inl hc
        · rcases ih hjoin with hc | ⟨r, hr, hxr⟩
          · exact Or.inl hc
          · exact Or.inr ⟨r, List.mem_cons_of_mem p hr, hxr⟩

/-! Lemmas: the decimal codec round-trips. -/

theorem digitVal_digitChar (d : Nat) (h : d < 10) : digitVal (digitChar d) = some d := by
  interval_cases d <;> rfl

theorem digitChar_ne (d : Nat) : digitChar d ≠ ' ' ∧ digitChar d ≠ '/' := by
  unfold digitChar
  split <;> exact ⟨by decide, by decide⟩

theorem valDigits_toDigitsRev :
    ∀ fuel n, n ≤ fuel → valDigits (toDigitsRev fuel n) = n := by
  intro fuel
  induction fuel with
  | zero => intro n h; interval_cases n; rfl
  | succ f ih =>
    intro n h
    by_cases h0 : n = 0
    · subst h0; simp [toDigitsRev, valDigits]
    · have hlt : n / 10 < n := Nat.div_lt_self (Nat.pos_of_ne_zero h0) (by norm_num)
      have hdiv : n / 10 ≤ f := by omega
      simp only [toDigitsRev, if_neg h0, valDigits, ih _ hdiv]
      omega

theorem toDigitsRev_lt :
    ∀ fuel n d, d ∈ toDigitsRev fuel n → d < 10 := by
  intro fuel
  induction fuel with
  | zero => intro n d h; simp [toDigitsRev] at h
  | succ f ih =>
    intro n d h
    by_cases h0 : n = 0
    · subst h0; simp [toDigitsRev] at h
    · simp only [toDigitsRev, if_neg h0, List.mem_cons] at h
      rcases h with h | h
      · subst h; exact Nat.mod_lt n (by norm_num)
      · exact ih _ _ h

theorem digitsVal_map_digitChar (ds : List Nat) (h : ∀ d ∈ ds, d < 10) :
    digitsVal (ds.map digitChar) = some ds := by
  induction ds with
  | nil => rfl
  | cons d rest ih =>
    simp only [List.map_cons, digitsVal,
      digitVal_digitChar d (h d (by simp)),
      ih fun x hx => h x (List.mem_cons_of_mem d hx)]

theorem parseNat_printNat (n : Nat) : parseNat (printNat n) = some n := by
  by_cases h0 : n = 0
  · subst h0; rfl
  · have hne : toDigitsRev n n ≠ [] := by
      rcases n with _ | m
      · exact absurd rfl h0
      · simp [toDigitsRev]
    unfold printNat parseNat
    rw [if_neg h0]
    have hme : ((toDigitsRev n n).map digitChar).reverse.isEmpty = false := by
      simp [hne]
    rw [if_neg (by simp [hme])]
    rw [← List.map_reverse,
      digitsVal_map_digitChar _ fun d hd =>
        toDigitsRev_lt n n d (List.mem_reverse.mp hd)]
    simp [List.reverse_reverse, valDigits_toDigitsRev n n le_rfl]

theorem printNat_ne (n : Nat) (x : Char) (hx : x ∈ printNat n) :
    x ≠ ' ' ∧ x ≠ '/' := by
  unfold printNat at hx
  split at hx
  · simp only [List.mem_singleton] at hx
    subst hx; exact ⟨by decide, by decide⟩
  · rw [List.mem_reverse] at hx
    rcases List.mem_map.mp hx with ⟨d, _, hd⟩
    subst hd; exact digitChar_ne d

/-! Lemmas: the FEN rank codec round-trips. -/

theorem pieceOfChar_pieceChar (pc : Piece) : pieceOfChar (pieceChar pc) = some pc := by
  rcases pc with ⟨c, r⟩
  cases c <;> cases r <;> rfl

theorem digitVal_pieceChar (pc : Piece) : digitVal (pieceChar pc) = none := by
  rcases pc with ⟨c, r⟩
  cases c <;> cases r <;> rfl

theorem pieceChar_ne (pc : Piece) : pieceChar pc ≠ ' ' ∧ pieceChar pc ≠ '/' := by
  rcases pc with ⟨c, r⟩
  cases c <;> cases r <;> exact ⟨by decide, by decide⟩

theorem encRank_ne (r : List (Option Piece)) :
    ∀ k x, x ∈ encRank r k → x ≠ ' ' ∧ x ≠ '/' := by
  induction r with
  | nil =>
    intro k x hx
    cases k with
    | zero => simp [encRank] at hx
    | succ k =>
      simp only [encRank, List.mem_singleton] at hx
      subst hx; exact digitChar_ne (k + 1)
  | cons o rest ih =>
    intro k x hx
    cases o with
    | none => exact ih (k + 1) x (by simpa [encRank] using hx)
    | some pc =>
      cases k with
      | zero =>
        simp only [encRank, List.mem_cons] at hx
        rcases hx with hx | hx
        · subst hx; exact pieceChar_ne pc
        · exact ih 0 x hx
      | succ k =>
        simp only [encRank, List.mem_cons] at hx
        rcases hx with hx | hx | hx
        · subst hx; exact digitChar_ne (k + 1)
        · subst hx; exact pieceChar_ne pc
        · exact ih 0 x hx

theorem decRank_encRank :
    ∀ (r : List (Option Piece)) (k : Nat), k + r.length ≤ 8 →
      decRank (encRank r k) = some (List.replicate k none ++ r) := by
  intro r
  induction r with
  | nil =>
    intro k hk
    cases k with
    | zero => rfl
    | succ k =>
      simp only [encRank, decRank, digitVal_digitChar (k + 1) (by omega)]
      rw [if_pos ⟨by omega, by simp at hk; omega⟩]
      simp [decRank]
  | cons o rest ih =>
    intro k hk
    cases o with
    | none =>
      have h2 : (k + 1) + rest.length ≤ 8 := by simp at hk; omega
      simp only [encRank]
      rw [ih (k + 1) h2, List.replicate_succ']
      simp
    | some pc =>
      cases k with
      | zero =>
        have h2 : 0 + rest.length ≤ 8 := by simp at hk; omega
        simp only [encRank, decRank, digitVal_pieceChar, pieceOfChar_pieceChar]
        rw [ih 0 h2]
        simp
      | succ k =>
        have hk8 : k + 1 ≤ 8 := by simp at hk; omega
        have h2 : 0 + rest.length ≤ 8 := by simp at hk; omega
        simp only [encRank, decRank, digitVal_digitChar (k + 1) (by omega),
          digitVal_pieceChar, pieceOfChar_pieceChar]
        rw [if_pos ⟨by omega, hk8⟩, ih 0 h2]
        simp

theorem decodeRank_encRank (r : List (Option Piece)) (h : r.length = 8) :
    decodeRank (encRank r 0) = some r := by
  unfold decodeRank
  rw [decRank_encRank r 0 (by omega)]
  simp [h]

/-! Lemmas: the FEN board codec round-trips. -/

theorem chunksB_length (n : Nat) : ∀ l, (chunksB n l).length = n := by
  induction n with
  | zero => intro l; rfl
  | succ n ih => intro l; simp [chunksB, ih]

theorem chunksB_mem_length :
    ∀ n (l : Board), 8 * n ≤ l.length → ∀ r ∈ chunksB n l, r.length = 8 := by
  intro n
  induction n with
  | zero => intro l _ r hr; simp [chunksB] at hr
  | succ n ih =>
    intro l h r hr
    simp only [chunksB, List.mem_cons] at hr
    rcases hr with hr | hr
    · subst hr; rw [List.length_take]; omega
    · exact ih (l.drop 8) (by rw [List.length_drop]; omega) r hr

theorem flatten_chunksB : ∀ n (l : Board), (chunksB n l).flatten = l.take (8 * n) := by
  intro n
  induction n with
  | zero => intro l; simp [chunksB]
  | succ n ih =>
    intro l
    simp only [chunksB, List.flatten_cons, ih]
    rw [show 8 * (n + 1) = 8 + 8 * n by ring, List.take_add]

theorem decodeRanks_map (rs : List (List (Option Piece))) (h : ∀ r ∈ rs, r.length = 8) :
    decodeRanks (rs.map fun r => encRank r 0) = some rs := by
  induction rs with
  | nil => rfl
  | cons r rest ih =>
    simp only [List.map_cons, decodeRanks, decodeRank_encRank r (h r (by simp)),
      ih fun x hx => h x (List.mem_cons_of_mem r hx)]

theorem mem_encodeBoard_ne (b : Board) (x : Char) (hx : x ∈ encodeBoard b) : x ≠ ' ' := by
  rcases mem_joinSep '/' _ x hx with hc | ⟨p, hp, hxp⟩
  · subst hc; decide
  · rcases List.mem_map.mp hp with ⟨r, _, hr⟩
    subst hr
    exact (encRank_ne r 0 x hxp).1

theorem decodeBoard_encodeBoard (b : Board) (h : b.length = 64) :
    decodeBoard (encodeBoard b) = some b := by
  unfold decodeBoard encodeBoard
  have hlen : ((chunksB 8 b).reverse.map fun r => encRank r 0).length = 8 := by
    simp [chunksB_length]
  have hparts : ∀ p ∈ (chunksB 8 b).reverse.map fun r => encRank r 0, '/' ∉ p := by
    intro p hp hcp
    rcases List.mem_map.mp hp with ⟨r, _, hr⟩
    subst hr
    exact (encRank_ne r 0 '/' hcp).2 rfl
  rw [splitCh_joinSep '/' _ (fun hnil => by simp [hnil] at hlen) hparts, if_pos hlen,
    decodeRanks_map _ fun r hr =>
      chunksB_mem_length 8 b (by omega) r (List.mem_reverse.mp hr)]
  simp only [Option.map_some', List.reverse_reverse, flatten_chunksB]
  rw [show (8 * 8 : Nat) = 64 from rfl, ← h, List.take_length]

/-! Lemmas: the remaining FEN field codecs round-trip. -/

theorem decodeTurn_turnChar (c : Color) : decodeTurn [turnChar c] = some c := by
  cases c <;> rfl

theorem turnChar_ne (c : Color) : turnChar c ≠ ' ' := by
  cases c <;> decide

theorem decodeCastles_encodeCastles (cr : Castles) :
    decodeCastles (encodeCastles cr) = some cr := by
  rcases cr with ⟨wk, wq, bk, bq⟩
  cases wk <;> cases wq <;> cases bk <;> cases bq <;> rfl

theorem mem_encodeCastles (cr : Castles) (x : Char) (hx : x ∈ encodeCastles cr) :
    x = 'K' ∨ x = 'Q' ∨ x = 'k' ∨ x = 'q' ∨ x = '-' := by
  rcases cr with ⟨wk, wq, bk, bq⟩
  cases wk <;> cases wq <;> cases bk <;> cases bq <;> simp [encodeCastles] at hx <;> tauto

theorem mem_encodeCastles_ne (cr : Castles) (x : Char) (hx : x ∈ encodeCastles cr) :
    x ≠ ' ' := by
  rcases mem_encodeCastles cr x hx with rfl | rfl | rfl | rfl | rfl <;> decide

theorem fileChar_ne (f : Nat) : fileChar f ≠ ' ' := by
  unfold fileChar; split <;> decide

theorem rankChar_ne (r : Nat) : rankChar r ≠ ' ' := by
  unfold rankChar; split <;> decide

theorem mem_squareName_ne (sq : Nat) (x : Char) (hx : x ∈ squareName sq) : x ≠ ' ' := by
  simp only [squareName, List.mem_cons, List.mem_singleton, List.not_mem_nil, or_false] at hx
  rcases hx with rfl | rfl
  · exact fileChar_ne _
  · exact rankChar_ne _

theorem mem_encodeEp_ne (e : Option Nat) (x : Char) (hx : x ∈ encodeEp e) : x ≠ ' ' := by
  cases e with
  | none =>
    simp only [encodeEp, List.mem_singleton] at hx
    subst hx; decide
  | some sq => exact mem_squareName_ne sq x hx

theorem decodeEp_encodeEp (e : Option Nat) (he : ∀ sq, e = some sq → sq < 64) :
    decodeEp (encodeEp e) = some e := by
  cases e with
  | none => rfl
  | some sq =>
    have h64 : sq < 64 := he sq rfl
    have hall : ∀ s < 64, decodeEp (encodeEp (some s)) = some (some s) := by decide
    exact hall sq h64

/-! Lemmas: dissecting the move generator around the en-passant square. -/

theorem tryOff_lt (sq : Nat) (df dr : Int) (t : Nat) (h : tryOff sq df dr = some t) :
    t < 64 := by
  simp only [tryOff] at h
  split at h
  · rename_i hcond
    injection h with h
    omega
  · exact absurd h (by simp)

theorem mem_pawnTo (me : Color) (sq dst : Nat) (m : Move) (h : m ∈ pawnTo me sq dst) :
    m.kind = MKind.normal := by
  simp only [pawnTo] at h
  split at h <;> split at h <;>
    first
    | (rcases List.mem_map.mp h with ⟨r, _, hr⟩; subst hr; rfl)
    | (rw [List.mem_singleton] at h; subst h; rfl)

theorem mem_pawnPushCaps_kind (b : Board) (me : Color) (sq : Nat) (m : Move)
    (h : m ∈ pawnPushCaps b me sq) : m.kind = MKind.normal := by
  simp only [pawnPushCaps, List.mem_append, List.mem_flatMap] at h
  rcases h with h | ⟨df, _, h⟩ <;>
    repeat
      first
      | (exact mem_pawnTo _ _ _ _ h)
      | (rw [List.mem_singleton] at h; subst h; rfl)
      | (rcases List.mem_append.mp h with h | h)
      | (split at h)
      | (exact absurd h (List.not_mem_nil m))

theorem mem_pawnEps (b : Board) (me : Color) (ep : Option Nat) (sq : Nat) (m : Move)
    (h : m ∈ pawnEps b me ep sq) :
    m.kind = MKind.enPassant ∧ ∃ e, ep = some e ∧ e < 64 := by
  simp only [pawnEps] at h
  split at h
  · exact absurd h (List.not_mem_nil m)
  · rename_i e
    rw [List.mem_flatMap] at h
    rcases h with ⟨df, _, h⟩
    split at h
    · rename_i t htry
      split at h
      · rename_i hcond
        rw [List.mem_singleton] at h
        subst h
        exact ⟨rfl, e, rfl, hcond.1 ▸ tryOff_lt _ _ _ _ htry⟩
      · exact absurd h (List.not_mem_nil m)
    · exact absurd h (List.not_mem_nil m)

theorem mem_jumpMoves_kind (b : Board) (me : Color) (sq : Nat) (offs : List (Int × Int))
    (m : Move) (h : m ∈ jumpMoves b me sq offs) : m.kind = MKind.normal := by
  simp only [jumpMoves, List.mem_flatMap] at h
  rcases h with ⟨d, _, h⟩
  split at h
  · split at h
    · split at h
      · simp at h
      · rw [List.mem_singleton] at h
        subst h; rfl
    · rw [List.mem_singleton] at h
      subst h; rfl
  · simp at h

theorem mem_slideMoves_kind (b : Board) (me : Color) (sq : Nat) (dirs : List (Int × Int))
    (m : Move) (h : m ∈ slideMoves b me sq dirs) : m.kind = MKind.normal := by
  simp only [slideMoves, List.mem_flatMap] at h
  rcases h with ⟨d, _, h⟩
  rcases List.mem_map.mp h with ⟨t, _, ht⟩
  subst ht; rfl

theorem mem_castleMovesF_kind (b : Board) (me : Color) (cr : Castles) (m : Move)
    (h : m ∈ castleMovesF b me cr) : m.kind = MKind.castle := by
  unfold castleMovesF at h
  cases me <;>
  · rcases List.mem_append.mp h with h | h <;>
    · split at h
      · rw [List.mem_singleton] at h
        subst h; rfl
      · simp at h

theorem pawnEps_none (b : Board) (me : Color) (sq : Nat) : pawnEps b me none sq = [] := rfl

theorem genAt_none_subset (b : Board) (me : Color) (ep : Option Nat) (sq : Nat) (m : Move)
    (h : m ∈ genAt b me none sq) : m ∈ genAt b me ep sq := by
  unfold genAt at h ⊢
  cases hb : boardGet b sq with
  | none =>
    rw [hb] at h
    exact absurd h (List.not_mem_nil m)
  | some pc =>
    rw [hb] at h
    rcases pc with ⟨c, r⟩
    have h2 : m ∈ if c = me then pieceMovesAt b me none sq r else [] := h
    show m ∈ if c = me then pieceMovesAt b me ep sq r else []
    by_cases hc : c = me
    · rw [if_pos hc] at h2 ⊢
      cases r with
      | pawn =>
        rcases List.mem_append.mp h2 with h3 | h3
        · exact List.mem_append.mpr (Or.inl h3)
        · rw [pawnEps_none] at h3
          exact absurd h3 (List.not_mem_nil m)
      | knight => exact h2
      | bishop => exact h2
      | rook => exact h2
      | queen => exact h2
      | king => exact h2
    · rw [if_neg hc] at h2
      exact absurd h2 (List.not_mem_nil m)

theorem genAt_not_ep (b : Board) (me : Color) (ep : Option Nat) (sq : Nat) (m : Move)
    (h : m ∈ genAt b me ep sq) (hk : m.kind ≠ MKind.enPassant) : m ∈ genAt b me none sq := by
  unfold genAt at h ⊢
  cases hb : boardGet b sq with
  | none =>
    rw [hb] at h
    exact absurd h (List.not_mem_nil m)
  | some pc =>
    rw [hb] at h
    rcases pc with ⟨c, r⟩
    have h2 : m ∈ if c = me then pieceMovesAt b me ep sq r else [] := h
    show m ∈ if c = me then pieceMovesAt b me none sq r else []
    by_cases hc : c = me
    · rw [if_pos hc] at h2 ⊢
      cases r with
      | pawn =>
        rcases List.mem_append.mp h2 with h3 | h3
        · exact List.mem_append.mpr (Or.inl h3)
        · exact absurd (mem_pawnEps b me ep sq m h3).1 hk
      | knight => exact h2
      | bishop => exact h2
      | rook => exact h2
      | queen => exact h2
      | king => exact h2
    · rw [if_neg hc] at h2
      exact absurd h2 (List.not_mem_nil m)

theorem genAt_ep_bound (b : Board) (me : Color) (ep : Option Nat) (sq : Nat) (m : Move)
    (h : m ∈ genAt b me ep sq) (hk : m.kind = MKind.enPassant) :
    ∃ e, ep = some e ∧ e < 64 := by
  unfold genAt at h
  cases hb : boardGet b sq with
  | none =>
    rw [hb] at h
    exact absurd h (List.not_mem_nil m)
  | some pc =>
    rw [hb] at h
    rcases pc with ⟨c, r⟩
    have h2 : m ∈ if c = me then pieceMovesAt b me ep sq r else [] := h
    by_cases hc : c = me
    · rw [if_pos hc] at h2
      cases r with
      | pawn =>
        rcases List.mem_append.mp h2 with h3 | h3
        · rw [mem_pawnPushCaps_kind b me sq m h3] at hk
          exact absurd hk (by simp)
        · exact (mem_pawnEps b me ep sq m h3).2
      | knight =>
        rw [mem_jumpMoves_kind b me sq knightOffs m h2] at hk
        exact absurd hk (by simp)
      | bishop =>
        rw [mem_slideMoves_kind b me sq bishopDirs m h2] at hk
        exact absurd hk (by simp)
      | rook =>
        rw [mem_slideMoves_kind b me sq rookDirs m h2] at hk
        exact absurd hk (by simp)
      | queen =>
        rw [mem_slideMoves_kind b me sq (rookDirs ++ bishopDirs) m h2] at hk
        exact absurd hk (by simp)
      | king =>
        rw [mem_jumpMoves_kind b me sq kingOffs m h2] at hk
        exact absurd hk (by simp)
    · rw [if_neg hc] at h2
      exact absurd h2 (List.not_mem_nil m)

theorem pseudoMoves_clearEp_eq (p : Chess) :
    pseudoMoves { p with ep := none } =
      ((List.range 64).flatMap fun sq => genAt p.board p.turn none sq) ++
        castleMovesF p.board p.turn p.castles := rfl

theorem pseudoMoves_clearEp_subset (p : Chess) (m : Move)
    (h : m ∈ pseudoMoves { p with ep := none }) : m ∈ pseudoMoves p := by
  rw [pseudoMoves_clearEp_eq] at h
  unfold pseudoMoves
  rcases List.mem_append.mp h with h | h
  · rcases List.mem_flatMap.mp h with ⟨sq, hsq, h⟩
    exact List.mem_append.mpr
      (Or.inl (List.mem_flatMap.mpr ⟨sq, hsq, genAt_none_subset _ _ _ _ _ h⟩))
  · exact List.mem_append.mpr (Or.inr h)

theorem pseudoMoves_not_ep (p : Chess) (m : Move) (h : m ∈ pseudoMoves p)
    (hk : m.kind ≠ MKind.enPassant) : m ∈ pseudoMoves { p with ep := none } := by
  rw [pseudoMoves_clearEp_eq]
  unfold pseudoMoves at h
  rcases List.mem_append.mp h with h | h
  · rcases List.mem_flatMap.mp h with ⟨sq, hsq, h⟩
    exact List.mem_append.mpr
      (Or.inl (List.mem_flatMap.mpr ⟨sq, hsq, genAt_not_ep _ _ _ _ _ h hk⟩))
  · exact List.mem_append.mpr (Or.inr h)

theorem pseudoMoves_ep_bound (p : Chess) (m : Move) (h : m ∈ pseudoMoves p)
    (hk : m.kind = MKind.enPassant) : ∃ e, p.ep = some e ∧ e < 64 := by
  unfold pseudoMoves at h
  rcases List.mem_append.mp h with h | h
  · rcases List.mem_flatMap.mp h with ⟨sq, _, h⟩
    exact genAt_ep_bound _ _ _ _ _ h hk
  · rw [mem_castleMovesF_kind _ _ _ _ h] at hk
    exact absurd hk (by simp)

theorem isLegal_clearEp (p : Chess) (m : Move) :
    isLegal { p with ep := none } m = isLegal p m := rfl

theorem hasLegalEp_false_not_ep (p : Chess) (h : hasLegalEp p = false) (m : Move)
    (hm : m ∈ legal_moves p) : m.kind ≠ MKind.enPassant := by
  intro hk
  rw [hasLegalEp, List.any_eq_false] at h
  exact h m hm (by simp [hk])

theorem legal_moves_clearEp (p : Chess) (h : hasLegalEp p = false) (m : Move) :
    m ∈ legal_moves { p with ep := none } ↔ m ∈ legal_moves p := by
  constructor
  · intro hm
    rcases List.mem_filter.mp hm with ⟨hp, hl⟩
    exact List.mem_filter.mpr ⟨pseudoMoves_clearEp_subset p m hp,
      by rw [← isLegal_clearEp p m]; exact hl⟩
  · intro hm
    rcases List.mem_filter.mp hm with ⟨hp, hl⟩
    by_cases hk : m.kind = MKind.enPassant
    · exact absurd hk (hasLegalEp_false_not_ep p h m hm)
    · exact List.mem_filter.mpr ⟨pseudoMoves_not_ep p m hp hk,
        by rw [isLegal_clearEp p m]; exact hl⟩

theorem epDisclosed_lt (p : Chess) (sq : Nat) (h : epDisclosed p = some sq) : sq < 64 := by
  unfold epDisclosed at h
  cases hep : p.ep with
  | none => rw [hep] at h; exact absurd h (by simp)
  | some e =>
    rw [hep] at h
    have h2 : (if hasLegalEp p = true then some e else none) = some sq := h
    by_cases hl : hasLegalEp p
    · rw [if_pos hl] at h2
      injection h2 with h2
      subst h2
      rw [hasLegalEp, List.any_eq_true] at hl
      rcases hl with ⟨m, hm, hk⟩
      rw [decide_eq_true_eq] at hk
      rcases pseudoMoves_ep_bound p m (List.mem_filter.mp hm).1 hk with ⟨e2, he2, hlt⟩
      rw [hep] at he2
      injection he2 with he2
      rw [he2]
      exact hlt
    · rw [if_neg hl] at h2
      exact absurd h2 (by simp)

/-! Lemmas: decoding the emitted FEN recovers the position (up to the
legal en-passant disclosure). -/

theorem mem_fenFields_ne (p : Chess) : ∀ f ∈ fenFields p, ' ' ∉ f := by
  intro f hf
  simp only [fenFields, List.mem_cons, List.not_mem_nil, or_false] at hf
  rcases hf with rfl | rfl | rfl | rfl | rfl | rfl
  · exact fun hsp => mem_encodeBoard_ne p.board ' ' hsp rfl
  · intro hsp
    rw [List.mem_singleton] at hsp
    exact turnChar_ne p.turn hsp.symm
  · exact fun hsp => mem_encodeCastles_ne p.castles ' ' hsp rfl
  · exact fun hsp => mem_encodeEp_ne (epDisclosed p) ' ' hsp rfl
  · exact fun hsp => (printNat_ne p.halfmoves ' ' hsp).1 rfl
  · exact fun hsp => (printNat_ne p.fullmoves ' ' hsp).1 rfl

theorem decodeFen_fen_of (p : Chess) (h : p.board.length = 64) :
    decodeFen (fen_of p) = some { p with ep := epDisclosed p } := by
  unfold decodeFen fen_of
  have hd : (⟨joinSep ' ' (fenFields p)⟩ : String).data = joinSep ' ' (fenFields p) := rfl
  rw [hd, splitCh_joinSep ' ' (fenFields p) (by simp [fenFields]) (mem_fenFields_ne p)]
  simp only [fenFields]
  rw [decodeBoard_encodeBoard p.board h]
  simp only [Option.bind_eq_bind, Option.some_bind]
  rw [decodeTurn_turnChar p.turn]
  simp only [Option.some_bind]
  rw [decodeCastles_encodeCastles p.castles]
  simp only [Option.some_bind]
  rw [decodeEp_encodeEp (epDisclosed p) (epDisclosed_lt p)]
  simp only [Option.some_bind]
  rw [parseNat_printNat p.halfmoves]
  simp only [Option.some_bind]
  rw [parseNat_printNat p.fullmoves]
  rfl

theorem epDisclosed_of_no_legal_ep (p : Chess) (h : hasLegalEp p = false) :
    epDisclosed p = none := by
  unfold epDisclosed
  cases p.ep with
  | none => rfl
  | some e => simp [h]

theorem ep_some_of_hasLegalEp (p : Chess) (h : hasLegalEp p = true) :
    ∃ e, p.ep = some e := by
  rw [hasLegalEp, List.any_eq_true] at h
  rcases h with ⟨m, hm, hk⟩
  rw [decide_eq_true_eq] at hk
  rcases pseudoMoves_ep_bound p m (List.mem_filter.mp hm).1 hk with ⟨e, he, _⟩
  exact ⟨e, he⟩

theorem epDisclosed_of_hasLegalEp (p : Chess) (h : hasLegalEp p = true) :
    ({ p with ep := epDisclosed p } : Chess) = p := by
  rcases ep_some_of_hasLegalEp p h with ⟨e, he⟩
  unfold epDisclosed
  rw [he]
  simp only [h, if_pos]
  rw [← he]

theorem mem_legal_moves_uci_clearEp (p : Chess) (h : hasLegalEp p = false) (u : String) :
    u ∈ legal_moves_uci { p with ep := none } ↔ u ∈ legal_moves_uci p := by
  unfold legal_moves_uci
  constructor
  · intro hu
    rcases List.mem_map.mp hu with ⟨m, hm, hmu⟩
    exact List.mem_map.mpr ⟨m, (legal_moves_clearEp p h m).mp hm, hmu⟩
  · intro hu
    rcases List.mem_map.mp hu with ⟨m, hm, hmu⟩
    exact List.mem_map.mpr ⟨m, (legal_moves_clearEp p h m).mpr hm, hmu⟩

theorem mem_legal_moves_uci_decodeFen (p : Chess) (h : p.board.length = 64) (u : String) :
    ∀ q, decodeFen (fen_of p) = some q →
      (u ∈ legal_moves_uci q ↔ u ∈ legal_moves_uci p) := by
  intro q hq
  rw [decodeFen_fen_of p h] at hq
  injection hq with hq
  subst hq
  by_cases hl : hasLegalEp p
  · rw [epDisclosed_of_hasLegalEp p hl]
  · rw [epDisclosed_of_no_legal_ep p (Bool.eq_false_iff.mpr hl)]
    exact mem_legal_moves_uci_clearEp p (Bool.eq_false_iff.mpr hl) u

/-! Lemmas: every position a session can hold has a 64-square board. -/

theorem play_unchecked_board_length (p : Chess) (m : Move) :
    (play_unchecked p m).board.length = p.board.length := by
  rcases m with ⟨src, dst, promo, kind⟩
  cases kind <;> simp [play_unchecked, boardSet, List.length_set]

theorem decodeRank_length (cs : List Char) (r : List (Option Piece))
    (h : decodeRank cs = some r) : r.length = 8 := by
  unfold decodeRank at h
  cases hd : decRank cs with
  | none => rw [hd] at h; exact absurd h (by simp)
  | some r2 =>
    rw [hd] at h
    have h2 : (if r2.length = 8 then some r2 else none) = some r := h
    split at h2
    · rename_i hlen
      injection h2 with h2
      subst h2
      exact hlen
    · exact absurd h2 (by simp)

theorem decodeRanks_lengths :
    ∀ (parts : List (List Char)) (ranks : List (List (Option Piece))),
      decodeRanks parts = some ranks →
      ranks.length = parts.length ∧ ∀ r ∈ ranks, r.length = 8 := by
  intro parts
  induction parts with
  | nil =>
    intro ranks h
    injection h with h
    subst h
    exact ⟨rfl, by simp⟩
  | cons cs rest ih =>
    intro ranks h
    simp only [decodeRanks] at h
    cases hr : decodeRank cs with
    | none => rw [hr] at h; exact absurd h (by simp)
    | some r =>
      rw [hr] at h
      cases hrs : decodeRanks rest with
      | none => rw [hrs] at h; exact absurd h (by simp)
      | some rs =>
        rw [hrs] at h
        injection h with h
        subst h
        rcases ih rs hrs with ⟨hlen, hall⟩
        refine ⟨by simp [hlen], ?_⟩
        intro x hx
        rcases List.mem_cons.mp hx with rfl | hx
        · exact decodeRank_length cs x hr
        · exact hall x hx

theorem decodeBoard_length (cs : List Char) (b : Board) (h : decodeBoard cs = some b) :
    b.length = 64 := by
  simp only [decodeBoard] at h
  split at h
  · rename_i hlen
    cases hr : decodeRanks (splitCh '/' cs) with
    | none => rw [hr] at h; exact absurd h (by simp)
    | some ranks =>
      rw [hr] at h
      injection h with h
      subst h
      rcases decodeRanks_lengths _ ranks hr with ⟨hl, hall⟩
      have hmap : ranks.reverse.map List.length = List.replicate 8 8 := by
        rw [List.eq_replicate_iff]
        constructor
        · simp [hl, hlen]
        · intro x hx
          rcases List.mem_map.mp hx with ⟨r, hrr, hrx⟩
          subst hrx
          exact hall r (List.mem_reverse.mp hrr)
      rw [List.length_flatten, hmap, List.sum_replicate]
      norm_num
  · exact absurd h (by simp)

theorem decodeFen_board_length (s : String) (p : Chess) (h : decodeFen s = some p) :
    p.board.length = 64 := by
  unfold decodeFen at h
  split at h
  · rename_i bf tf cf ef hf ff
    simp only [Option.bind_eq_bind, Option.bind_eq_some, Option.pure_def,
      Option.some.injEq] at h
    rcases h with ⟨b, hb, t, ht, c, hc, e, he, hm2, hhm, fm, hfm, hp⟩
    rw [← hp]
    exact decodeBoard_length _ b hb
  · exact absurd h (by simp)

theorem chessDefault_board_length : chessDefault.board.length = 64 := by decide

/-! Lemmas: parsed UCI text is canonical, so printing the parsed
descriptor recovers the request text. -/

theorem fileVal_inv (c : Char) (f : Nat) (h : fileVal c = some f) :
    f < 8 ∧ fileChar f = c := by
  unfold fileVal at h
  split at h <;>
    first
    | (injection h with h; subst h; exact ⟨by decide, rfl⟩)
    | (exact absurd h (by simp))

theorem rankVal_inv (c : Char) (r : Nat) (h : rankVal c = some r) :
    r < 8 ∧ rankChar r = c := by
  unfold rankVal at h
  split at h <;>
    first
    | (injection h with h; subst h; exact ⟨by decide, rfl⟩)
    | (exact absurd h (by simp))

theorem promoOfChar_inv (c : Char) (r : Role) (h : promoOfChar c = some r) :
    roleChar r = c := by
  unfold promoOfChar at h
  split at h <;>
    first
    | (injection h with h; subst h; rfl)
    | (exact absurd h (by simp))

theorem fileOf_mkSq (f r : Nat) (hf : f < 8) : fileOf (mkSq f r) = f := by
  unfold fileOf mkSq; omega

theorem rankOf_mkSq (f r : Nat) (hf : f < 8) : rankOf (mkSq f r) = r := by
  unfold rankOf mkSq; omega

theorem uciString_parseUci (s : String) (u : UciMove) (h : parseUci s = some u) :
    uciString u = s := by
  rcases s with ⟨data⟩
  unfold parseUci at h
  split at h
  · rename_i a b c d hdata
    simp only [Option.bind_eq_bind, Option.bind_eq_some, Option.pure_def,
      Option.some.injEq] at h
    rcases h with ⟨f1, hf1, r1, hr1, f2, hf2, r2, hr2, hu⟩
    have hdata2 : data = [a, b, c, d] := hdata
    subst hdata2
    rcases fileVal_inv _ _ hf1 with ⟨hf1b, hf1c⟩
    rcases rankVal_inv _ _ hr1 with ⟨hr1b, hr1c⟩
    rcases fileVal_inv _ _ hf2 with ⟨hf2b, hf2c⟩
    rcases rankVal_inv _ _ hr2 with ⟨hr2b, hr2c⟩
    subst hu
    unfold uciString squareName
    simp only [fileOf_mkSq _ _ hf1b, rankOf_mkSq _ _ hf1b, fileOf_mkSq _ _ hf2b,
      rankOf_mkSq _ _ hf2b, hf1c, hr1c, hf2c, hr2c]
    rfl
  · rename_i a b c d e hdata
    simp only [Option.bind_eq_bind, Option.bind_eq_some, Option.pure_def,
      Option.some.injEq] at h
    rcases h with ⟨f1, hf1, r1, hr1, f2, hf2, r2, hr2, pr, hpr, hu⟩
    have hdata2 : data = [a, b, c, d, e] := hdata
    subst hdata2
    rcases fileVal_inv _ _ hf1 with ⟨hf1b, hf1c⟩
    rcases rankVal_inv _ _ hr1 with ⟨hr1b, hr1c⟩
    rcases fileVal_inv _ _ hf2 with ⟨hf2b, hf2c⟩
    rcases rankVal_inv _ _ hr2 with ⟨hr2b, hr2c⟩
    have hprc := promoOfChar_inv _ _ hpr
    subst hu
    unfold uciString squareName
    simp only [fileOf_mkSq _ _ hf1b, rankOf_mkSq _ _ hf1b, fileOf_mkSq _ _ hf2b,
      rankOf_mkSq _ _ hf2b, hf1c, hr1c, hf2c, hr2c, hprc]
    rfl
  · exact absurd h (by simp)
/-! The claims. -/

/-- C1: for every session and every move request, a UCI/SAN pair is
appended to the session's histories if and only if the move was legally
applied; every failure of `apply_move` (session not found, UCI parse
failure, or illegal move) leaves the registry — in particular the
session's position, `history_uci` and `history_san` — exactly as it was
before the call. -/
theorem apply_move_atomic (store : Store) (id : Nat) (req : String) :
    match store id with
    | none => apply_move store id req = (store, Except.error ApiError.notFound)
    | some entry =>
      match parseUci req with
      | none => apply_move store id req = (store, Except.error ApiError.badRequest)
      | some uci =>
        match uciToMove uci entry.pos with
        | none => apply_move store id req = (store, Except.error ApiError.illegalMove)
        | some m =>
          (apply_move store id req).1 id =
            some ⟨play_unchecked entry.pos m,
              entry.history_uci ++ [uciString uci],
              entry.history_san ++ [encodeSan entry.pos m]⟩ ∧
          (∀ j, j ≠ id → (apply_move store id req).1 j = store j) ∧
          (apply_move store id req).2 =
            Except.ok ⟨id, req, encodeSan entry.pos m,
              fen_of (play_unchecked entry.pos m),
              legal_moves_uci (play_unchecked entry.pos m),
              status_of (play_unchecked entry.pos m)⟩ := by
  split
  · rename_i hs
    simp [apply_move, hs]
  · rename_i entry hs
    split
    · rename_i hu
      simp [apply_move, hs, hu]
    · rename_i uci hu
      split
      · rename_i hm
        simp [apply_move, hs, hu, hm]
      · rename_i m hm
        refine ⟨?_, ?_, ?_⟩
        · simp [apply_move, hs, hu, hm, storeInsert]
        · intro j hj
          simp [apply_move, hs, hu, hm, storeInsert, hj]
        · simp [apply_move, hs, hu, hm]

/-- C2: for every position with a drawn rules-engine outcome, the derived
status is `Stalemate` exactly when the side to move has zero legal moves
while not in check, and `Draw` otherwise; for every position with a
decisive outcome the derived status is `Checkmate` carrying the winning
color. -/
theorem status_of_draw_and_decisive (p : Chess) :
    (outcome p = Outcome.draw →
      ((status_of p = GameStatus.stalemate ↔
          legal_moves p = [] ∧ is_check p = false) ∧
        ((legal_moves p ≠ [] ∨ is_check p = true) →
          status_of p = GameStatus.draw))) ∧
    (∀ w, outcome p = Outcome.decisive w →
      status_of p = GameStatus.checkmate (stmOf w)) := by
  constructor
  · intro hd
    unfold status_of
    rw [hd]
    show ((if is_stalemate p then GameStatus.stalemate else GameStatus.draw) =
        GameStatus.stalemate ↔ legal_moves p = [] ∧ is_check p = false) ∧
      ((legal_moves p ≠ [] ∨ is_check p = true) →
        (if is_stalemate p then GameStatus.stalemate else GameStatus.draw) =
          GameStatus.draw)
    constructor
    · constructor
      · intro hst
        split at hst
        · rename_i hsm
          unfold is_stalemate at hsm
          rw [Bool.and_eq_true] at hsm
          exact ⟨decide_eq_true_eq.mp hsm.1, by simpa using hsm.2⟩
        · exact absurd hst (by simp)
      · intro hlc
        have hsm : is_stalemate p = true := by
          unfold is_stalemate
          rw [hlc.1, hlc.2]
          simp
        rw [if_pos hsm]
    · intro hor
      have hsm : is_stalemate p = false := by
        unfold is_stalemate
        rcases hor with hlm | hck
        · rw [decide_eq_false hlm]
          simp
        · rw [hck]
          simp
      rw [hsm]
      simp
  · intro w hd
    unfold status_of
    rw [hd]
    cases w <;> rfl

theorem status_of_draw_and_decisive_witness :
    ((status_of bareKings = GameStatus.stalemate ↔
        legal_moves bareKings = [] ∧ is_check bareKings = false) ∧
      ((legal_moves bareKings ≠ [] ∨ is_check bareKings = true) →
        status_of bareKings = GameStatus.draw)) ∧
    status_of matePos = GameStatus.checkmate (stmOf Color.white) :=
  ⟨(status_of_draw_and_decisive bareKings).1 (by decide),
    (status_of_draw_and_decisive matePos).2 Color.white (by decide)⟩

/-- C3: a sequence consisting of one queen shuffling move, applied to a
session created from a position whose halfmove clock stands at 99,
exhausts the move-count limit and leaves the session with derived status
`Draw`. -/
theorem shuffle_sequence_draw :
    (apply_move c3Store 0 (r"b2b3")).2.isOk = true ∧
    ((apply_move c3Store 0 (r"b2b3")).1 0).map (fun e => status_of e.pos) =
      some GameStatus.draw := by
  constructor
  · decide
  · decide

/-- C4: for every successful move application, the UCI text appended to
the session's `history_uci` equals the UCI text of the request, and that
same text is returned in the response as `applied_uci`. -/
theorem apply_move_uci_recorded (store : Store) (id : Nat) (req : String) :
    match store id with
    | none => True
    | some entry =>
      match parseUci req with
      | none => True
      | some uci =>
        match uciToMove uci entry.pos with
        | none => True
        | some _m =>
          uciString uci = req ∧
          (∃ e2, (apply_move store id req).1 id = some e2 ∧
            e2.history_uci = entry.history_uci ++ [req]) ∧
          (∃ r, (apply_move store id req).2 = Except.ok r ∧ r.applied_uci = req) := by
  split
  · trivial
  · rename_i entry hs
    split
    · trivial
    · rename_i uci hu
      split
      · trivial
      · rename_i m hm
        have hreq := uciString_parseUci req uci hu
        refine ⟨hreq, ⟨⟨play_unchecked entry.pos m,
            entry.history_uci ++ [uciString uci],
            entry.history_san ++ [encodeSan entry.pos m]⟩, ?_, ?_⟩,
          ⟨⟨id, req, encodeSan entry.pos m,
            fen_of (play_unchecked entry.pos m),
            legal_moves_uci (play_unchecked entry.pos m),
            status_of (play_unchecked entry.pos m)⟩, ?_, rfl⟩⟩
        · simp [apply_move, hs, hu, hm, storeInsert]
        · simp [hreq]
        · simp [apply_move, hs, hu, hm]

/-- C5: session positions always carry 64-square boards (conjuncts 1–3:
decoded FENs, the default position, and move application all maintain
this), and for every such position, creating a fresh session from the FEN
the session reports succeeds and yields a session whose set of legal
moves (as UCI text) equals the original position's set of legal moves
(conjunct 4). -/
theorem fen_roundtrip_legal_moves :
    (∀ s p, decodeFen s = some p → p.board.length = 64) ∧
    chessDefault.board.length = 64 ∧
    (∀ p m, (play_unchecked p m).board.length = p.board.length) ∧
    (∀ p : Chess, p.board.length = 64 → ∀ id store,
      ∃ q, (create_game id store (some (fen_of p))).1 id = some ⟨q, [], []⟩ ∧
        (create_game id store (some (fen_of p))).2 = Except.ok ⟨id, fen_of q⟩ ∧
        ∀ u, u ∈ legal_moves_uci q ↔ u ∈ legal_moves_uci p) := by
  refine ⟨decodeFen_board_length, chessDefault_board_length,
    play_unchecked_board_length, ?_⟩
  intro p hp id store
  refine ⟨{ p with ep := epDisclosed p }, ?_, ?_, ?_⟩
  · simp [create_game, decodeFen_fen_of p hp, storeInsert]
  · simp [create_game, decodeFen_fen_of p hp]
  · intro u
    exact mem_legal_moves_uci_decodeFen p hp u _ (decodeFen_fen_of p hp)

theorem fen_roundtrip_legal_moves_witness :
    ∃ q, (create_game 1 (fun _ => none) (some (fen_of chessDefault))).1 1 =
        some ⟨q, [], []⟩ ∧
      (create_game 1 (fun _ => none) (some (fen_of chessDefault))).2 =
        Except.ok ⟨1, fen_of q⟩ ∧
      ∀ u, u ∈ legal_moves_uci q ↔ u ∈ legal_moves_uci chessDefault :=
  fen_roundtrip_legal_moves.2.2.2 chessDefault (by decide) 1 (fun _ => none)

/-- C6: creating a game with no FEN in the request initializes the session
at the standard chess start position (whose FEN is the standard start
FEN), and that session's legal-move list has exactly 20 entries. -/
theorem create_game_default_start (id : Nat) (store : Store) :
    (create_game id store none).1 id = some ⟨chessDefault, [], []⟩ ∧
    (create_game id store none).2 = Except.ok ⟨id, fen_of chessDefault⟩ ∧
    (legal_moves_uci chessDefault).length = 20 ∧
    fen_of chessDefault =
      "rnbqkbnr/pppppppp/8/8/8/8/PPPPPPPP/RNBQKBNR w KQkq - 0 1" := by
  refine ⟨?_, rfl, by decide, by decide⟩
  simp [create_game, storeInsert]

/-- C7: for every FEN string the decoder rejects, `create_game` returns
`BadRequest` and the registry is returned unchanged: no entry is inserted
and no id is returned. -/
theorem create_game_invalid_fen (id : Nat) (store : Store) (fs : String)
    (h : decodeFen fs = none) :
    create_game id store (some fs) = (store, Except.error ApiError.badRequest) := by
  simp [create_game, h]

theorem create_game_invalid_fen_witness :
    create_game 0 (fun _ => none) (some (r"not a fen")) =
      ((fun _ => none), Except.error ApiError.badRequest) :=
  create_game_invalid_fen 0 (fun _ => none) (r"not a fen") (by decide)

/-- C8: every store-modifying operation of the core (`create_game`,
`delete_game`, `apply_move`) preserves the invariant that each stored
session has histories of equal length; `get_game` and `list_legal_moves`
take the read lock only and return no store at all. -/
theorem operations_preserve_history_invariant (s : Store) (h : StoreInv s) :
    (∀ id fenOpt, StoreInv (create_game id s fenOpt).1) ∧
    (∀ id, StoreInv (delete_game s id).1) ∧
    (∀ id req, StoreInv (apply_move s id req).1) := by
  refine ⟨?_, ?_, ?_⟩
  · intro id fenOpt j e hj
    cases fenOpt with
    | none =>
      simp only [create_game, storeInsert] at hj
      by_cases hji : j = id
      · rw [if_pos hji] at hj
        injection hj with hj
        rw [← hj]
      · rw [if_neg hji] at hj
        exact h j e hj
    | some fs =>
      cases hd : decodeFen fs with
      | none =>
        simp only [create_game, hd] at hj
        exact h j e hj
      | some pos =>
        simp only [create_game, hd, storeInsert] at hj
        by_cases hji : j = id
        · rw [if_pos hji] at hj
          injection hj with hj
          rw [← hj]
        · rw [if_neg hji] at hj
          exact h j e hj
  · intro id j e hj
    unfold delete_game at hj
    cases hs : s id with
    | none =>
      rw [hs] at hj
      exact h j e hj
    | some e0 =>
      rw [hs] at hj
      have hj2 : storeRemove s id j = some e := hj
      simp only [storeRemove] at hj2
      by_cases hji : j = id
      · rw [if_pos hji] at hj2
        exact absurd hj2 (by simp)
      · rw [if_neg hji] at hj2
        exact h j e hj2
  · intro id req j e hj
    cases hs : s id with
    | none =>
      simp only [apply_move, hs] at hj
      exact h j e hj
    | some entry =>
      cases hu : parseUci req with
      | none =>
        simp only [apply_move, hs, hu] at hj
        exact h j e hj
      | some uci =>
        cases hm : uciToMove uci entry.pos with
        | none =>
          simp only [apply_move, hs, hu, hm] at hj
          exact h j e hj
        | some m =>
          simp only [apply_move, hs, hu, hm, storeInsert] at hj
          by_cases hji : j = id
          · rw [if_pos hji] at hj
            injection hj with hj
            rw [← hj]
            simp [h id entry hs]
          · rw [if_neg hji] at hj
            exact h j e hj

theorem operations_preserve_history_invariant_witness :
    (∀ id fenOpt, StoreInv (create_game id (fun _ => none) fenOpt).1) ∧
    (∀ id, StoreInv (delete_game (fun _ => none) id).1) ∧
    (∀ id req, StoreInv (apply_move (fun _ => none) id req).1) :=
  operations_preserve_history_invariant (fun _ => none)
    (fun _ _ hj => Option.noConfusion hj)

/-- C9: for every successful move application, the SAN text recorded in
`history_san` and returned as `applied_san` is the SAN encoding of the
resolved move against the pre-move position `entry.pos`, computed before
the move is applied. -/
theorem apply_move_san_premove (store : Store) (id : Nat) (req : String) :
    match store id with
    | none => True
    | some entry =>
      match parseUci req with
      | none => True
      | some uci =>
        match uciToMove uci entry.pos with
        | none => True
        | some m =>
          (∃ e2, (apply_move store id req).1 id = some e2 ∧
            e2.history_san = entry.history_san ++ [encodeSan entry.pos m]) ∧
          (∃ r, (apply_move store id req).2 = Except.ok r ∧
            r.applied_san = encodeSan entry.pos m) := by
  split
  · trivial
  · rename_i entry hs
    split
    · trivial
    · rename_i uci hu
      split
      · trivial
      · rename_i m hm
        constructor
        · refine ⟨⟨play_unchecked entry.pos m,
            entry.history_uci ++ [uciString uci],
            entry.history_san ++ [encodeSan entry.pos m]⟩, ?_, rfl⟩
          simp [apply_move, hs, hu, hm, storeInsert]
        · refine ⟨⟨id, req, encodeSan entry.pos m,
            fen_of (play_unchecked entry.pos m),
            legal_moves_uci (play_unchecked entry.pos m),
            status_of (play_unchecked entry.pos m)⟩, ?_, rfl⟩
          simp [apply_move, hs, hu, hm]

/-- C10: for every registry state, `create_game` unconditionally inserts
the new empty-history session under the freshly generated id, leaves
every entry under any other id unchanged, and silently replaces any entry
already stored under that id (the conclusion holds with no assumption on
`store id`). -/
theorem create_game_frame (id : Nat) (store : Store) (fenOpt : Option String) :
    match fenOpt with
    | none =>
      (create_game id store none).1 id = some ⟨chessDefault, [], []⟩ ∧
      (∀ j, j ≠ id → (create_game id store none).1 j = store j) ∧
      (create_game id store none).2 = Except.ok ⟨id, fen_of chessDefault⟩
    | some fs =>
      match decodeFen fs with
      | some pos =>
        (create_game id store (some fs)).1 id = some ⟨pos, [], []⟩ ∧
        (∀ j, j ≠ id → (create_game id store (some fs)).1 j = store j) ∧
        (create_game id store (some fs)).2 = Except.ok ⟨id, fen_of pos⟩
      | none =>
        create_game id store (some fs) = (store, Except.error ApiError.badRequest) := by
  split
  · refine ⟨by simp [create_game, storeInsert], ?_, rfl⟩
    intro j hj
    simp [create_game, storeInsert, hj]
  · rename_i fs
    split
    · rename_i pos hd
      refine ⟨by simp [create_game, hd, storeInsert], ?_, by simp [create_game, hd]⟩
      intro j hj
      simp [create_game, hd, storeInsert, hj]
    · rename_i hd
      simp [create_game, hd]

end ChessApp

